import Mathlib

/-!
# Verification of the Factorio save backup manager

Shallow embedding of the upload orchestration engine of the
`factorio-save-backup-manager` repository:

* the upload orchestrator `FactorioBackup.checkForChanges` and its
  `lastHash` fingerprint state (config-manager.js),
* the name formatter `FactorioBackup.formatBackupName` (config-manager.js),
* the change detector `FactorioBackup.getLatestSave` (config-manager.js),
* the multipart upload coordinator `uploadLarge` / `uploadPart` of
  services/rootz.js, and
* the two branches of `FactorioBackup.calculateHash`.

External effects (file reads, network fetches, timers) are modelled as
explicit inputs: a check cycle carries the observed directory/hash/upload
outcome, and the multipart coordinator is parameterised by the outcome of
each `fetch` it would perform.
-/

namespace FactorioBackup

/-! ## Upload orchestrator: `checkForChanges` (config-manager.js)

```js
async checkForChanges() {
    try {
        const save = await this.getLatestSave();
        if (!save) return;
        const currentHash = await this.calculateHash(save.path);
        if (this.lastHash !== currentHash) {
            const formattedName = this.formatBackupName(save.name);
            const downloadUrl = await this.uploadToCloud(save.path, formattedName);
            if (downloadUrl) { ... notification (never throws) ... }
            this.lastHash = currentHash;
        } else { ... }
    } catch (error) { ... }
}
```

`uploadToCloud` either returns a download URL, returns `undefined` without
throwing (missing Buzzheavier account id, or an unsupported service name),
or throws (both service adapters re-throw their errors).  A thrown error
propagates to the outer `catch`, skipping the `this.lastHash = currentHash`
assignment.  `sendNotification` of services/discord.js catches its own
errors and never throws. -/

/-- A save candidate as returned by `getLatestSave`: `{ path, name }`. -/
structure SaveInfo where
  path : String
  name : String
deriving DecidableEq, Repr

/-- Behaviour of one `uploadToCloud` invocation: it throws, or it returns
(`returned none` models `return undefined` — the missing-credential and
unsupported-service paths; `returned (some url)` a successful upload). -/
inductive UploadOutcome where
  | threw
  | returned (url : Option String)
deriving DecidableEq, Repr

/-- The externally observed data of one check cycle: the result of
`getLatestSave`, the hash `calculateHash` computes for it, and what
`uploadToCloud` does when invoked. -/
structure CheckCycle where
  save : Option SaveInfo
  hash : String
  upload : UploadOutcome
deriving DecidableEq, Repr

/-- One step of `checkForChanges`, returning the new `this.lastHash`
(`none` models the initial `null`). -/
def checkForChanges (lastHash : Option String) (c : CheckCycle) : Option String :=
  match c.save with
  | none => lastHash
  | some _ =>
    if lastHash ≠ some c.hash then
      match c.upload with
      | .threw => lastHash
      | .returned _ => some c.hash
    else lastHash

/-- The change decision `this.lastHash !== currentHash` of a cycle. -/
def shouldUpload (lastHash : Option String) (c : CheckCycle) : Bool :=
  lastHash ≠ some c.hash

/-- A cycle in which a candidate with hash `h` is found and the upload
succeeds end to end with URL `u`. -/
def okCycle (h u : String) : CheckCycle :=
  ⟨some ⟨"save.zip", "save.zip"⟩, h, .returned (some u)⟩

/-- `checkForChanges` folded over a sequence of successful-upload cycles
with the given hashes; returns the list of per-cycle change decisions. -/
def runCycles : Option String → List String → List Bool
  | _, [] => []
  | lastHash, h :: hs =>
    let d := shouldUpload lastHash (okCycle h "url")
    runCycles (checkForChanges lastHash (okCycle h "url")) hs |>.cons d

/-! ## Name formatter: `formatBackupName` (config-manager.js)

```js
formatBackupName(originalName) {
    const timestamp = new Date().toISOString()   // then: replace T by '_',
        // strip the fractional part, remove all colons and all dashes
    let baseName = originalName.replace(/\.zip$/i, '');
    baseName = baseName.replace(/_\d{8}_\d{6}$/, '');
    const prefixStr = this.config.backupPrefix
        ? this.config.backupPrefix.replace(/[^a-zA-Z0-9_-]/g, '_') : '';
    const parts = baseName.split('_');
    if (parts.length > 1 && !baseName.startsWith('_autosave')) {
        baseName = parts.slice(1).join('_');
    }
    const finalPrefix = prefixStr ? prefixStr + '_' : '';
    return `${finalPrefix}${baseName}_${timestamp}.zip`;
}
```

Strings are modelled as `List Char`; the freshly computed timestamp (which
for any `Date` has the shape `\d{8}_\d{6}`) is an explicit argument.
`this.config.backupPrefix` is modelled as a `String` whose emptiness plays
the role of JS falsiness (both `null` and `''` are falsy). -/

/-- `originalName.replace(/\.zip$/i, '')`: drop a trailing `.zip`,
case-insensitively on the letters. -/
def stripZip (cs : List Char) : List Char :=
  match cs.reverse with
  | p :: i :: z :: dot :: rest =>
    if (p = 'p' ∨ p = 'P') ∧ (i = 'i' ∨ i = 'I') ∧ (z = 'z' ∨ z = 'Z') ∧ dot = '.' then
      rest.reverse
    else cs
  | _ => cs

/-- The 16-character window matched by `/_\d{8}_\d{6}$/`:
an underscore, eight digits, an underscore, six digits. -/
def isTsWindow : List Char → Bool
  | u1 :: b1 :: b2 :: b3 :: b4 :: b5 :: b6 :: b7 :: b8 :: u2 :: a1 :: a2 :: a3 :: a4 :: a5 :: a6 :: [] =>
    u1 = '_' && u2 = '_' &&
    [b1, b2, b3, b4, b5, b6, b7, b8].all Char.isDigit &&
    [a1, a2, a3, a4, a5, a6].all Char.isDigit
  | _ => false

/-- Whether `/_\d{8}_\d{6}$/` matches, i.e. the last 16 characters form a
previously-applied timestamp suffix. -/
def tsSuffixMatches (cs : List Char) : Bool :=
  16 ≤ cs.length && isTsWindow (cs.drop (cs.length - 16))

/-- `baseName.replace(/_\d{8}_\d{6}$/, '')`. -/
def stripTs (cs : List Char) : List Char :=
  if tsSuffixMatches cs then cs.take (cs.length - 16) else cs

/-- `backupPrefix.replace(/[^a-zA-Z0-9_-]/g, '_')`. -/
def sanitizePrefix (cs : List Char) : List Char :=
  cs.map fun c => if c.isAlphanum || c = '_' || c = '-' then c else '_'

/-- `s.split('_')` with JS semantics (`''.split('_') == ['']`). -/
def splitUnderscore : List Char → List (List Char)
  | [] => [[]]
  | c :: cs =>
    match splitUnderscore cs with
    | [] => if c = '_' then [[], []] else [[c]]
    | h :: t => if c = '_' then [] :: h :: t else (c :: h) :: t

/-- `parts.join('_')`. -/
def joinUnderscore (parts : List (List Char)) : List Char :=
  match parts with
  | [] => []
  | h :: t => h ++ (t.map (fun p => '_' :: p)).flatten

/-- The timestamp-independent part `${finalPrefix}${baseName}` of
`formatBackupName`'s return template. -/
def formatStem (backupPrefix name : List Char) : List Char :=
  let base1 := stripZip name
  let base2 := stripTs base1
  let prefixStr := if backupPrefix = [] then [] else sanitizePrefix backupPrefix
  let parts := splitUnderscore base2
  let base3 :=
    if 1 < parts.length ∧ ¬ ("_autosave".data.isPrefixOf base2) then
      joinUnderscore (parts.drop 1)
    else base2
  let finalPrefix := if prefixStr = [] then [] else prefixStr ++ ['_']
  finalPrefix ++ base3

/-- `FactorioBackup.formatBackupName` on character lists, with the fresh
timestamp `ts` (derived from `new Date()`) passed in explicitly:
`` `${finalPrefix}${baseName}_${timestamp}.zip` ``. -/
def formatBackupNameL (backupPrefix ts name : List Char) : List Char :=
  formatStem backupPrefix name ++ '_' :: ts ++ ".zip".data

/-- `FactorioBackup.formatBackupName` on `String`s. -/
def formatBackupName (backupPrefix ts name : String) : String :=
  ⟨formatBackupNameL backupPrefix.data ts.data name.data⟩

/-- A well-formed freshly generated timestamp core (`\d{8}_\d{6}`), the
shape every processed `new Date().toISOString()` has: eight digits, an
underscore, six digits. -/
def IsTsCore (ts : List Char) : Prop :=
  ∃ b1 b2 b3 b4 b5 b6 b7 b8 a1 a2 a3 a4 a5 a6 : Char,
    ts = [b1, b2, b3, b4, b5, b6, b7, b8, '_', a1, a2, a3, a4, a5, a6] ∧
    [b1, b2, b3, b4, b5, b6, b7, b8].all Char.isDigit = true ∧
    [a1, a2, a3, a4, a5, a6].all Char.isDigit = true

/-- Number of stacked timestamp segments at the end of a name: how many
times `/_\d{8}_\d{6}$/` strips in a row (fuel-based, fuel `cs.length`). -/
def tsChainGo : Nat → List Char → Nat
  | 0, _ => 0
  | fuel + 1, cs =>
    if tsSuffixMatches cs then 1 + tsChainGo fuel (cs.take (cs.length - 16)) else 0

/-- Number of trailing stacked `_\d{8}_\d{6}` segments of a name. -/
def tsChain (cs : List Char) : Nat := tsChainGo cs.length cs

/-! ## Change detector: `getLatestSave` (config-manager.js)

```js
async getLatestSave() {
    const saveDir = this.savePath;
    try {
        const files = await fs.readdir(saveDir);
        const saveFiles = files.filter(f => f.endsWith('.zip')).filter(f => {
            const mtime = statSync(path.join(saveDir, f)).mtime.getTime();
            return mtime >= this.startTime;
        }).sort((a, b) => statSync(...b).mtime - statSync(...a).mtime);
        if (saveFiles.length > 0) { return { path: ..., name: saveFiles[0] }; }
    } catch (error) { console.error(...); }
    return null;
}
```

A directory entry carries its name and modification time; a directory read
is `none` on failure.  `Array.prototype.sort` is stable (ES2019), so the
descending sort is modelled by a stable insertion sort. -/

/-- A directory entry with its `statSync(...).mtime.getTime()`. -/
structure DirEntry where
  name : String
  mtime : Nat
deriving DecidableEq, Repr

/-- Stable insert for the descending-by-mtime sort: an element from earlier
in the array stays before later elements with an equal key. -/
def insertByMtimeDesc (e : DirEntry) : List DirEntry → List DirEntry
  | [] => [e]
  | f :: fs => if e.mtime < f.mtime then f :: insertByMtimeDesc e fs else e :: f :: fs

/-- `saveFiles.sort((a, b) => mtime(b) - mtime(a))`, a stable sort. -/
def sortByMtimeDesc : List DirEntry → List DirEntry
  | [] => []
  | e :: es => insertByMtimeDesc e (sortByMtimeDesc es)

/-- `f.endsWith('.zip')` (case sensitive, as in `getLatestSave`), on the
name's character list. -/
def endsWithZip (s : String) : Bool := ".zip".data.isSuffixOf s.data

/-- `files.filter(f => f.endsWith('.zip')).filter(f => mtime >= startTime)`. -/
def saveCandidates (startTime : Nat) (files : List DirEntry) : List DirEntry :=
  (files.filter fun f => endsWithZip f.name).filter fun f => startTime ≤ f.mtime

/-- `FactorioBackup.getLatestSave`: head of the sorted candidate list, or
`none` when there is no candidate or the directory read failed. -/
def getLatestSave (startTime : Nat) (dir : Option (List DirEntry)) : Option DirEntry :=
  match dir with
  | none => none
  | some files => (sortByMtimeDesc (saveCandidates startTime files)).head?

end FactorioBackup

namespace Rootz

/-! ## Multipart upload coordinator (services/rootz.js)

`uploadLarge` initialises a session (`uploadId`, `key`, `chunkSize`,
`totalParts`), fetches all presigned URLs, uploads the parts in batches of
`getOptimalParallelism(fileSize)` concurrent `uploadPart` calls
(`Promise.all`, which settles with results in argument order), sorts the
collected results by `partNumber` and POSTs them to the completion
endpoint.  Each network `fetch` a part performs is modelled by an explicit
outcome: a transport error or a response with a status and an optional
`ETag` header. -/

/-- `{ partNumber, etag }` as collected per uploaded part; `etag` is
`none` when the response carried no `ETag` header (JS `undefined`). -/
structure PartResult where
  partNumber : Nat
  etag : Option String
deriving DecidableEq, Repr

/-- Outcome of one `fetch(url, { method: 'PUT', ... })` for a part. -/
inductive FetchResult where
  | transportError
  | response (status : Nat) (etag : Option String)
deriving DecidableEq, Repr

/-- `res.ok`: the HTTP status is in the range 200–299. -/
def respOk (status : Nat) : Bool := 200 ≤ status && status < 300

/-- `res.headers.get('etag')?.replace(/"/g, '')`. -/
def dequote (s : String) : String := ⟨s.data.filter (· ≠ '"')⟩

/-- The byte-range start `(partNumber - 1) * chunkSize` of a part. -/
def partStart (chunkSize partNumber : Nat) : Nat := (partNumber - 1) * chunkSize

/-- The byte-range end `Math.min(start + chunkSize, fileSize)` of a part. -/
def partEnd (chunkSize fileSize partNumber : Nat) : Nat :=
  min (partStart chunkSize partNumber + chunkSize) fileSize

/-- `totalParts == ceil(fileSize / chunkSizeBytes)`, the session invariant
the provider's init endpoint guarantees (spec §3). -/
def totalPartsOf (fileSize chunkSize : Nat) : Nat := (fileSize + chunkSize - 1) / chunkSize

/-- One attempt of `uploadPart`'s retry loop body: `none` models a thrown
error (transport failure or non-2xx status), `some` the returned
`{ partNumber, etag }`. -/
def attemptPart (partNumber : Nat) (f : FetchResult) : Option PartResult :=
  match f with
  | .transportError => none
  | .response status etag =>
    if respOk status then some ⟨partNumber, etag.map dequote⟩ else none

/-- Observable trace of one `uploadPart` call: how many attempts ran, the
backoff delays (in seconds) slept between consecutive attempts, and the
result (`none` models `uploadPart` throwing). -/
structure RetryTrace where
  attempts : Nat
  delays : List Nat
  result : Option PartResult
deriving DecidableEq, Repr

/-- `const maxRetries = 3`. -/
def maxRetries : Nat := 3

/-- The retry loop of `uploadPart`
(`for (let attempt = 0; attempt < maxRetries; attempt++)`): on error the
last attempt (`attempt === maxRetries - 1`) re-throws, earlier attempts
sleep `2 ** attempt * 1000` ms and retry.  `fetchAt a` is the outcome of
the fetch at attempt `a`; `remaining` counts the loop iterations left. -/
def uploadPartGo (partNumber : Nat) (fetchAt : Nat → FetchResult) :
    Nat → Nat → RetryTrace
  | _, 0 => ⟨0, [], none⟩
  | attempt, remaining + 1 =>
    match attemptPart partNumber (fetchAt attempt) with
    | some res => ⟨1, [], some res⟩
    | none =>
      if remaining = 0 then ⟨1, [], none⟩
      else
        let t := uploadPartGo partNumber fetchAt (attempt + 1) remaining
        ⟨t.attempts + 1, 2 ^ attempt :: t.delays, t.result⟩

/-- `uploadPart(partNumber)` of services/rootz.js, as its retry trace. -/
def uploadPart (partNumber : Nat) (fetchAt : Nat → FetchResult) : RetryTrace :=
  uploadPartGo partNumber fetchAt 0 maxRetries

/-- `getOptimalParallelism(fileSize)` of services/rootz.js. -/
def getOptimalParallelism (fileSize : Nat) : Nat :=
  if fileSize > 50 * 1024 ^ 3 then 3
  else if fileSize > 10 * 1024 ^ 3 then 4
  else if fileSize > 1 * 1024 ^ 3 then 5
  else 6

/-- The part numbers of the batch starting after index `i`
(`for (let j = i + 1; j <= Math.min(i + parallelism, totalParts); j++)`). -/
def batchRange (i parallelism totalParts : Nat) : List Nat :=
  List.range' (i + 1) (min (i + parallelism) totalParts - i)

/-- `Promise.all` over one batch: all results in argument order, or `none`
as soon as any promise rejects. -/
def promiseAll (f : Nat → Option PartResult) : List Nat → Option (List PartResult)
  | [] => some []
  | j :: js =>
    match f j, promiseAll f js with
    | some r, some rs => some (r :: rs)
    | _, _ => none

/-- The batching loop of `uploadLarge`
(`for (let i = 0; i < totalParts; i += parallelism)`), accumulating
`uploadedParts`; `none` models the whole upload throwing.  `fuel` bounds
the number of iterations (`totalParts` iterations always suffice since
`parallelism ≥ 1`). -/
def uploadBatchesGo (fetchFor : Nat → Nat → FetchResult) (parallelism totalParts : Nat) :
    Nat → Nat → Option (List PartResult)
  | i, fuel =>
    if totalParts ≤ i then some []
    else
      match fuel with
      | 0 => none
      | fuel + 1 =>
        match promiseAll (fun j => (uploadPart j (fetchFor j)).result)
            (batchRange i parallelism totalParts) with
        | none => none
        | some results =>
          match uploadBatchesGo fetchFor parallelism totalParts (i + parallelism) fuel with
          | none => none
          | some rest => some (results ++ rest)

/-- `uploadedParts.sort((a, b) => a.partNumber - b.partNumber)`. -/
def sortParts (l : List PartResult) : List PartResult :=
  l.insertionSort fun a b => a.partNumber ≤ b.partNumber

/-- `uploadLarge` from the parts-uploading state on: uploads all parts in
batches and, when no part permanently failed, yields the sorted parts list
that is POSTed to the completion endpoint; `none` means the upload threw
and the finalize call was never issued. -/
def uploadLarge (fetchFor : Nat → Nat → FetchResult) (fileSize totalParts : Nat) :
    Option (List PartResult) :=
  (uploadBatchesGo fetchFor (getOptimalParallelism fileSize) totalParts 0 totalParts).map
    sortParts

end Rootz

namespace FactorioBackup

/-! ## `calculateHash` (config-manager.js)

```js
async calculateHash(filePath) {
    try {
        const file = Bun.file(filePath);
        const arrayBuffer = await file.arrayBuffer();
        return crypto.createHash('md5').update(new Uint8Array(arrayBuffer)).digest('hex');
    } catch (e) {
        const fileBuffer = await fs.readFile(filePath);
        return crypto.createHash('md5').update(fileBuffer).digest('hex');
    }
}
```

Both branches digest the file's full byte content with the external
`crypto` MD5 and hex-encode the 16-byte digest.  The external pieces are
modelled explicitly: the file's content is a byte list (both
`Bun.file(p).arrayBuffer()` and `fs.readFile(p)` yield the file's bytes;
`new Uint8Array(arrayBuffer)` is a view of the same bytes, and
`update` consumes a `Uint8Array` and a Node `Buffer` identically), and the
raw 16-byte MD5 function is a parameter `md5`.  `digest('hex')` is the
lowercase hex encoding of the digest bytes. -/

/-- Lowercase hex digit of a value `< 16`. -/
def hexDigit (n : Nat) : Char :=
  if n < 10 then Char.ofNat ('0'.toNat + n) else Char.ofNat ('a'.toNat + (n - 10))

/-- `digest('hex')`: two lowercase hex digits per digest byte. -/
def hexEncode (bytes : List Nat) : String :=
  ⟨(bytes.map fun b => [hexDigit (b / 16), hexDigit (b % 16)]).flatten⟩

/-- `new Uint8Array(arrayBuffer)`: a byte view of the buffer — the same
byte sequence. -/
def uint8ArrayView (bytes : List Nat) : List Nat := bytes

/-- The `Bun.file(...).arrayBuffer()` branch of `calculateHash`, given the
raw MD5 `md5` and the file's byte content. -/
def calculateHashBun (md5 : List Nat → List Nat) (content : List Nat) : String :=
  hexEncode (md5 (uint8ArrayView content))

/-- The `fs.readFile` fallback branch of `calculateHash`. -/
def calculateHashFallback (md5 : List Nat → List Nat) (content : List Nat) : String :=
  hexEncode (md5 content)

/-- Characters allowed in a lowercase hex string. -/
def isLowerHexChar (c : Char) : Bool :=
  ('0' ≤ c && c ≤ '9') || ('a' ≤ c && c ≤ 'f')

end FactorioBackup

/-! # Theorems -/

open FactorioBackup Rootz

/-! ## C1: fingerprint update discipline of the orchestrator -/

/-- C1 (counterexample): it is not the case that `lastHash` changes only
when `uploadToCloud` returns a download URL: when the upload call returns
`undefined` without throwing (missing Buzzheavier account id, or an
unsupported service name), `checkForChanges` still runs
`this.lastHash = currentHash`. -/
theorem C1_fingerprint_only_on_url_false :
    ¬ ∀ (lastHash : Option String) (c : CheckCycle),
        checkForChanges lastHash c ≠ lastHash →
          ∃ url, c.upload = UploadOutcome.returned (some url) := by
  intro hclaim
  obtain ⟨url, hurl⟩ :=
    hclaim none ⟨some ⟨"p", "n"⟩, "h", .returned none⟩ (by decide)
  exact Option.noConfusion (UploadOutcome.returned.inj hurl)

/-- C1 (amended): `lastHash` is left unchanged exactly when the adapter
*throws*; whenever `checkForChanges` changes `lastHash` at all, a candidate
was found, the upload call returned (possibly without a URL), and the new
value is the candidate's fingerprint. -/
theorem checkForChanges_fingerprint_update (lastHash : Option String) (c : CheckCycle) :
    (c.upload = .threw → checkForChanges lastHash c = lastHash) ∧
    (checkForChanges lastHash c ≠ lastHash →
      c.save ≠ none ∧ c.upload ≠ .threw ∧ checkForChanges lastHash c = some c.hash) := by
  obtain ⟨save, hash, upload⟩ := c
  cases save <;> cases upload <;>
    simp only [checkForChanges] <;>
    constructor <;> intro h <;> simp_all

/-- Witness for the amended C1 theorem at a concrete cycle: a thrown
adapter error leaves the fingerprint unchanged. -/
theorem checkForChanges_fingerprint_update_witness :
    checkForChanges (some "old") ⟨some ⟨"p", "n"⟩, "new", .threw⟩ = some "old" :=
  (checkForChanges_fingerprint_update (some "old")
    ⟨some ⟨"p", "n"⟩, "new", .threw⟩).1 rfl

/-! ## C7: temporal behaviour of the change decision -/

/-- Unfolding of one `runCycles` cycle. -/
theorem runCycles_cons (last : Option String) (h : String) (hs : List String) :
    runCycles last (h :: hs) = shouldUpload last (okCycle h "url") ::
      runCycles (checkForChanges last (okCycle h "url")) hs := rfl

/-- A repeated fingerprint is not flagged as a change. -/
theorem shouldUpload_same (h : String) :
    shouldUpload (some h) (okCycle h "url") = false := by
  simp [shouldUpload, okCycle]

/-- A differing fingerprint is flagged as a change. -/
theorem shouldUpload_diff (h h' : String) (hne : h' ≠ h) :
    shouldUpload (some h) (okCycle h' "url") = true := by
  simp only [shouldUpload, okCycle, decide_eq_true_eq, Ne, Option.some.injEq]
  exact fun e => hne e.symm

/-- A successful cycle on fingerprint `h` leaves `lastHash = some h`. -/
theorem checkForChanges_ok (last : Option String) (h : String) :
    checkForChanges last (okCycle h "url") = some h := by
  by_cases hl : last = some h <;> simp [checkForChanges, okCycle, hl]

/-- Over successful-upload cycles starting from `lastHash = some h`,
`k` repeats of `h` produce `false` decisions and a final differing hash
produces `true`. -/
theorem runCycles_from_known (h h' : String) (hne : h' ≠ h) :
    ∀ k : Nat, runCycles (some h) (List.replicate k h ++ [h']) =
      List.replicate k false ++ [true] := by
  intro k
  induction k with
  | zero =>
    rw [List.replicate_zero, List.nil_append, runCycles_cons,
      shouldUpload_diff h h' hne]
    rfl
  | succ n ih =>
    rw [List.replicate_succ, List.cons_append, runCycles_cons,
      shouldUpload_same, checkForChanges_ok, ih]
    rfl

/-- C7: with `lastHash` starting unset (`null`), the very first candidate
always triggers an upload; over a run of identical fingerprints followed
by a differing one (all uploads succeeding), the change decision is true
for the first cycle, false for every repeat, and true exactly once more,
at the differing fingerprint. -/
theorem runCycles_change_decisions (h h' : String) (k : Nat) (hne : h' ≠ h) :
    (∀ c : CheckCycle, shouldUpload none c = true) ∧
    runCycles none (List.replicate (k + 1) h ++ [h']) =
      true :: (List.replicate k false ++ [true]) := by
  refine ⟨fun c => by simp [shouldUpload], ?_⟩
  rw [List.replicate_succ, List.cons_append, runCycles_cons,
    checkForChanges_ok, runCycles_from_known h h' hne k]
  simp [shouldUpload, okCycle]

/-- Witness for C7 at concrete hashes: three identical fingerprints then a
differing one give decisions `[true, false, false, true]`. -/
theorem runCycles_change_decisions_witness :
    runCycles none (List.replicate 3 "a" ++ ["b"]) =
      true :: (List.replicate 2 false ++ [true]) :=
  (runCycles_change_decisions "a" "b" 2 (by decide)).2

/-! ## C4: the part byte ranges tile the file -/

/-- C4: for `S, C > 0` and `totalParts = ceil(S / C)`, the byte ranges
`[(n-1)*C, min(n*C, S))` computed by `uploadPart` for `n` in
`[1, totalParts]` tile `[0, S)` exactly: every offset `k < S` lies in the
range of part `k / C + 1` (which is a valid part number), every part's
range is nonempty and contained in `[0, S)`, and no offset lies in two
distinct parts' ranges. -/
theorem part_ranges_tile (S C : Nat) (hS : 0 < S) (hC : 0 < C) :
    (∀ k, k < S →
      partStart C (k / C + 1) ≤ k ∧ k < partEnd C S (k / C + 1) ∧
      1 ≤ k / C + 1 ∧ k / C + 1 ≤ totalPartsOf S C) ∧
    (∀ n, 1 ≤ n → n ≤ totalPartsOf S C →
      partStart C n < partEnd C S n ∧ partEnd C S n ≤ S) ∧
    (∀ n m k, 1 ≤ n → n ≤ totalPartsOf S C → 1 ≤ m → m ≤ totalPartsOf S C →
      partStart C n ≤ k → k < partEnd C S n →
      partStart C m ≤ k → k < partEnd C S m → n = m) := by
  have htotal : totalPartsOf S C = (S - 1) / C + 1 := by
    unfold totalPartsOf
    rw [show S + C - 1 = (S - 1) + C by omega, Nat.add_div_right _ hC]
  refine ⟨?_, ?_, ?_⟩
  · intro k hk
    have hmod := Nat.mod_lt k hC
    have hdm := Nat.div_add_mod k C
    rw [Nat.mul_comm C (k / C)] at hdm
    refine ⟨?_, ?_, Nat.le_add_left 1 _, ?_⟩
    · simpa [partStart] using Nat.div_mul_le_self k C
    · have h1 : k < k / C * C + C := by omega
      simp only [partEnd, partStart, Nat.add_sub_cancel, lt_min_iff]
      exact ⟨h1, hk⟩
    · rw [htotal]
      have : k / C ≤ (S - 1) / C := Nat.div_le_div_right (by omega)
      omega
  · intro n h1 h2
    have hle : (n - 1) * C ≤ S - 1 := by
      calc (n - 1) * C ≤ (S - 1) / C * C := by
            apply Nat.mul_le_mul_right
            rw [htotal] at h2; omega
        _ ≤ S - 1 := Nat.div_mul_le_self _ _
    constructor
    · simp only [partStart, partEnd, lt_min_iff]
      exact ⟨by omega, by omega⟩
    · exact min_le_right _ _
  · intro n m k h1n h2n h1m h2m hsn hen hsm hem
    have hn : k / C = n - 1 := by
      apply Nat.div_eq_of_lt_le
      · simpa [partStart, Nat.mul_comm] using hsn
      · have := lt_of_lt_of_le hen (min_le_left _ _)
        simp only [partStart] at this
        calc k < (n - 1) * C + C := this
          _ = (n - 1 + 1) * C := by ring
    have hm : k / C = m - 1 := by
      apply Nat.div_eq_of_lt_le
      · simpa [partStart, Nat.mul_comm] using hsm
      · have := lt_of_lt_of_le hem (min_le_left _ _)
        simp only [partStart] at this
        calc k < (m - 1) * C + C := this
          _ = (m - 1 + 1) * C := by ring
    omega

/-- Witness for C4 at `S = 10`, `C = 4`: offset `9` lies in part
`9 / 4 + 1 = 3`, a valid part number. -/
theorem part_ranges_tile_witness :
    partStart 4 (9 / 4 + 1) ≤ 9 ∧ 9 < partEnd 4 10 (9 / 4 + 1) ∧
    1 ≤ 9 / 4 + 1 ∧ 9 / 4 + 1 ≤ totalPartsOf 10 4 :=
  (part_ranges_tile 10 4 (by decide) (by decide)).1 9 (by decide)

/-! ## Multipart coordinator lemmas (serving C5, C6, C9) -/

/-- A part attempt that returns carries the part's own number. -/
theorem attemptPart_partNumber (p : Nat) (f : FetchResult) (r : PartResult)
    (h : attemptPart p f = some r) : r.partNumber = p := by
  cases f with
  | transportError => simp [attemptPart] at h
  | response st e =>
    simp only [attemptPart] at h
    split at h
    · cases h; rfl
    · cases h

/-- Full case analysis of `uploadPart`: at most three attempts, with
backoff delays `2 ^ 0` and `2 ^ 1` seconds between consecutive attempts,
throwing only if all three attempts fail. -/
theorem uploadPart_cases (p : Nat) (f : Nat → FetchResult) :
    uploadPart p f =
      match attemptPart p (f 0) with
      | some r => ⟨1, [], some r⟩
      | none =>
        match attemptPart p (f 1) with
        | some r => ⟨2, [1], some r⟩
        | none =>
          match attemptPart p (f 2) with
          | some r => ⟨3, [1, 2], some r⟩
          | none => ⟨3, [1, 2], none⟩ := by
  have e3 : uploadPart p f = uploadPartGo p f 0 (2 + 1) := rfl
  have estep : ∀ a r, uploadPartGo p f a (r + 1) =
      match attemptPart p (f a) with
      | some res => ⟨1, [], some res⟩
      | none =>
        if r = 0 then ⟨1, [], none⟩
        else
          let t := uploadPartGo p f (a + 1) r
          ⟨t.attempts + 1, 2 ^ a :: t.delays, t.result⟩ := fun _ _ => rfl
  rw [e3, estep 0 2]
  rcases h0 : attemptPart p (f 0) with _ | r0
  · rw [show (2 : Nat) = 1 + 1 from rfl, estep 1 1]
    rcases h1 : attemptPart p (f 1) with _ | r1
    · rw [estep 2 0]
      rcases h2 : attemptPart p (f 2) with _ | r2 <;> rfl
    · rfl
  · rfl

/-- A returned `uploadPart` result carries the part's own number. -/
theorem uploadPart_partNumber (p : Nat) (f : Nat → FetchResult) (r : PartResult)
    (h : (uploadPart p f).result = some r) : r.partNumber = p := by
  rw [uploadPart_cases] at h
  rcases h0 : attemptPart p (f 0) with _ | r0 <;> rw [h0] at h
  · rcases h1 : attemptPart p (f 1) with _ | r1 <;> rw [h1] at h
    · rcases h2 : attemptPart p (f 2) with _ | r2 <;> rw [h2] at h
      · cases h
      · cases h; exact attemptPart_partNumber p (f 2) _ h2
    · cases h; exact attemptPart_partNumber p (f 1) _ h1
  · cases h; exact attemptPart_partNumber p (f 0) _ h0

/-- `Promise.all` over all-fulfilled promises yields the mapped list. -/
theorem promiseAll_of_all_some (f : Nat → Option PartResult) (g : Nat → PartResult) :
    ∀ l : List Nat, (∀ j ∈ l, f j = some (g j)) →
      promiseAll f l = some (l.map g)
  | [], _ => rfl
  | j :: js, h => by
    have hj : f j = some (g j) := h j (List.mem_cons_self j js)
    have hjs := promiseAll_of_all_some f g js fun x hx => h x (List.mem_cons_of_mem j hx)
    simp [promiseAll, hj, hjs]

/-- If `Promise.all` fulfilled, every constituent promise fulfilled. -/
theorem promiseAll_mem (f : Nat → Option PartResult) :
    ∀ (l : List Nat) (rs : List PartResult), promiseAll f l = some rs →
      ∀ j ∈ l, ∃ r, f j = some r
  | [], _, _ => by simp
  | j :: js, rs, h => by
    intro x hx
    rcases hfj : f j with _ | r <;> rw [promiseAll, hfj] at h
    · cases h
    · rcases hrec : promiseAll f js with _ | rest <;> rw [hrec] at h
      · cases h
      · rcases List.mem_cons.mp hx with rfl | hxs
        · exact ⟨r, hfj⟩
        · exact promiseAll_mem f js rest hrec x hxs

/-- If `Promise.all` fulfilled, the results' part numbers are the batch's
part numbers, in batch order. -/
theorem promiseAll_partNumbers (fetchFor : Nat → Nat → FetchResult) :
    ∀ (l : List Nat) (rs : List PartResult),
      promiseAll (fun j => (uploadPart j (fetchFor j)).result) l = some rs →
      rs.map (·.partNumber) = l
  | [], rs, h => by cases h; rfl
  | j :: js, rs, h => by
    rcases hfj : (uploadPart j (fetchFor j)).result with _ | r <;>
      rw [promiseAll, hfj] at h
    · cases h
    · rcases hrec : promiseAll (fun j => (uploadPart j (fetchFor j)).result) js
          with _ | rest <;> rw [hrec] at h
      · cases h
      · cases h
        simp only [List.map_cons]
        rw [promiseAll_partNumbers fetchFor js rest hrec,
          uploadPart_partNumber j (fetchFor j) r hfj]

/-- If the batching loop completes, every part in `(i, totalParts]` had a
fulfilled `uploadPart`, and the collected results list the part numbers
`i+1, …, totalParts` in ascending order. -/
theorem uploadBatchesGo_some (fetchFor : Nat → Nat → FetchResult) (par total : Nat) :
    ∀ (fuel i : Nat) (l : List PartResult),
      uploadBatchesGo fetchFor par total i fuel = some l →
      (∀ j, i < j → j ≤ total → ∃ r, (uploadPart j (fetchFor j)).result = some r) ∧
      l.map (·.partNumber) = List.range' (i + 1) (total - i) := by
  intro fuel
  induction fuel with
  | zero =>
    intro i l h
    rw [uploadBatchesGo] at h
    split at h
    · cases h
      refine ⟨fun j hij hjt => absurd (by omega : j ≤ i) (by omega), ?_⟩
      simp [show total - i = 0 by omega]
    · cases h
  | succ f ih =>
    intro i l h
    rw [uploadBatchesGo] at h
    split at h
    · cases h
      refine ⟨fun j hij hjt => absurd (by omega : j ≤ i) (by omega), ?_⟩
      simp [show total - i = 0 by omega]
    · rename_i hi
      rcases hpa : promiseAll (fun j => (uploadPart j (fetchFor j)).result)
          (batchRange i par total) with _ | results <;> rw [hpa] at h
      · cases h
      · rcases hrec : uploadBatchesGo fetchFor par total (i + par) f
            with _ | rest <;> rw [hrec] at h
        · cases h
        · cases h
          obtain ⟨ihcov, ihmap⟩ := ih (i + par) rest hrec
          have hbatch := promiseAll_partNumbers fetchFor _ results hpa
          constructor
          · intro j hij hjt
            by_cases hle : j ≤ i + par
            · have hjmem : j ∈ batchRange i par total := by
                simp only [batchRange, List.mem_range'_1]
                omega
              exact promiseAll_mem _ _ results hpa j hjmem
            · exact ihcov j (by omega) hjt
          · rw [List.map_append, hbatch, ihmap]
            unfold batchRange
            rcases Nat.le_total (i + par) total with hc | hc
            · rw [show min (i + par) total = i + par from min_eq_left hc]
              rw [show i + par + 1 = (i + 1) + (i + par - i) by omega]
              rw [List.range'_append_1]
              congr 1
              omega
            · rw [show min (i + par) total = total from min_eq_right hc]
              rw [show total - (i + par) = 0 by omega, List.range'_zero,
                List.append_nil]

/-- `getOptimalParallelism` always returns at least one concurrent
stream. -/
theorem getOptimalParallelism_pos (fileSize : Nat) :
    1 ≤ getOptimalParallelism fileSize := by
  unfold getOptimalParallelism
  split
  · omega
  · split
    · omega
    · split <;> omega

/-- When every part's `uploadPart` fulfills with `g j`, the batching loop
completes and collects `g (i+1), …, g totalParts` (given enough fuel). -/
theorem uploadBatchesGo_total (fetchFor : Nat → Nat → FetchResult) (par total : Nat)
    (hpar : 1 ≤ par) (g : Nat → PartResult)
    (hok : ∀ j, 1 ≤ j → j ≤ total → (uploadPart j (fetchFor j)).result = some (g j)) :
    ∀ (fuel i : Nat), total - i ≤ fuel →
      uploadBatchesGo fetchFor par total i fuel =
        some ((List.range' (i + 1) (total - i)).map g) := by
  intro fuel
  induction fuel with
  | zero =>
    intro i hfuel
    rw [uploadBatchesGo]
    rw [if_pos (by omega)]
    simp [show total - i = 0 by omega]
  | succ f ih =>
    intro i hfuel
    rw [uploadBatchesGo]
    by_cases hi : total ≤ i
    · rw [if_pos hi]
      simp [show total - i = 0 by omega]
    · rw [if_neg hi]
      have hpa : promiseAll (fun j => (uploadPart j (fetchFor j)).result)
          (batchRange i par total) = some ((batchRange i par total).map g) := by
        apply promiseAll_of_all_some
        intro j hj
        simp only [batchRange, List.mem_range'_1] at hj
        exact hok j (by omega) (by omega)
      rw [hpa, ih (i + par) (by omega)]
      simp only [batchRange, ← List.map_append]
      rcases Nat.le_total (i + par) total with hc | hc
      · rw [show min (i + par) total = i + par from min_eq_left hc]
        rw [show i + par - i = par by omega]
        rw [show i + par + 1 = (i + 1) + par by omega]
        rw [List.range'_append_1]
        rw [show total - (i + par) + par = total - i by omega]
      · rw [show min (i + par) total = total from min_eq_right hc]
        rw [show total - (i + par) = 0 by omega, List.range'_zero,
          List.append_nil]

/-- A parts list whose part numbers are `range'` is sorted, so the
explicit `sort((a, b) => a.partNumber - b.partNumber)` leaves it
unchanged. -/
theorem sortParts_of_range' (l : List PartResult) (s n : Nat)
    (h : l.map (·.partNumber) = List.range' s n) : sortParts l = l := by
  apply List.Sorted.insertionSort_eq
  have hp : List.Pairwise (· ≤ ·) (l.map (·.partNumber)) := by
    rw [h]; exact List.pairwise_le_range' s n
  exact List.pairwise_map.mp hp

/-! ## C5: per-part retry policy and abort-before-finalize -/

/-- C5: every part upload runs at most 3 attempts; the delays slept
between consecutive attempts are `2 ^ attempt` seconds (`1` then `2`);
`uploadPart` throws only after all three attempts failed; and when the
`uploadPart` of any part number in `[1, totalParts]` throws, `uploadLarge`
yields no parts list — the completion (finalize) endpoint is never
called. -/
theorem uploadPart_retry_policy (p : Nat) (fetchAt : Nat → FetchResult) :
    (uploadPart p fetchAt).attempts ≤ 3 ∧
    (uploadPart p fetchAt).delays =
      (List.range ((uploadPart p fetchAt).attempts - 1)).map (2 ^ ·) ∧
    ((uploadPart p fetchAt).result = none →
      attemptPart p (fetchAt 0) = none ∧ attemptPart p (fetchAt 1) = none ∧
      attemptPart p (fetchAt 2) = none) ∧
    (∀ (fetchFor : Nat → Nat → FetchResult) (fileSize total q : Nat),
      1 ≤ q → q ≤ total → (uploadPart q (fetchFor q)).result = none →
      uploadLarge fetchFor fileSize total = none) := by
  refine ⟨?_, ?_, ?_, ?_⟩
  · rw [uploadPart_cases]
    rcases attemptPart p (fetchAt 0) with _ | r0
    · rcases attemptPart p (fetchAt 1) with _ | r1
      · rcases attemptPart p (fetchAt 2) with _ | r2 <;> simp
      · simp
    · simp
  · rw [uploadPart_cases]
    rcases attemptPart p (fetchAt 0) with _ | r0
    · rcases attemptPart p (fetchAt 1) with _ | r1
      · rcases attemptPart p (fetchAt 2) with _ | r2 <;> rfl
      · rfl
    · rfl
  · rw [uploadPart_cases]
    rcases h0 : attemptPart p (fetchAt 0) with _ | r0
    · rcases h1 : attemptPart p (fetchAt 1) with _ | r1
      · rcases h2 : attemptPart p (fetchAt 2) with _ | r2
        · exact fun _ => ⟨rfl, rfl, rfl⟩
        · intro h; cases h
      · intro h; cases h
    · intro h; cases h
  · intro fetchFor fileSize total q h1q hqt hnone
    unfold uploadLarge
    rcases hinner : uploadBatchesGo fetchFor (getOptimalParallelism fileSize)
        total 0 total with _ | l
    · rfl
    · exfalso
      obtain ⟨hcov, _⟩ := uploadBatchesGo_some fetchFor _ total total 0 l hinner
      obtain ⟨r, hr⟩ := hcov q (by omega) hqt
      rw [hnone] at hr
      cases hr

/-- Witness for C5: a part whose three attempts all fail aborts the whole
multipart upload with no finalize call. -/
theorem uploadPart_retry_policy_witness :
    uploadLarge (fun _ _ => FetchResult.transportError) 0 1 = none :=
  (uploadPart_retry_policy 1 (fun _ => FetchResult.transportError)).2.2.2
    (fun _ _ => FetchResult.transportError) 0 1 1 (by decide) (by decide) rfl

/-! ## C6: the finalize input is complete and sorted -/

/-- C6: whenever the finalize call is issued (`uploadLarge` yields a parts
list), that list contains exactly one `PartResult` for every part number
in `[1, totalParts]`, in strictly ascending `partNumber` order, whatever
order the concurrent batch uploads completed in. -/
theorem uploadLarge_finalize_parts (fetchFor : Nat → Nat → FetchResult)
    (fileSize total : Nat) (parts : List PartResult)
    (h : uploadLarge fetchFor fileSize total = some parts) :
    parts.map (·.partNumber) = List.range' 1 total ∧
    parts.Pairwise (fun a b => a.partNumber < b.partNumber) := by
  unfold uploadLarge at h
  rcases hinner : uploadBatchesGo fetchFor (getOptimalParallelism fileSize)
      total 0 total with _ | l <;> rw [hinner] at h
  · cases h
  · obtain ⟨_, hmap⟩ := uploadBatchesGo_some fetchFor _ total total 0 l hinner
    rw [Nat.sub_zero] at hmap
    cases h
    rw [sortParts_of_range' l 1 total hmap]
    refine ⟨hmap, ?_⟩
    have hp : List.Pairwise (· < ·) (l.map (·.partNumber)) := by
      rw [hmap]; exact List.pairwise_lt_range' 1 total
    exact List.pairwise_map.mp hp

/-- Witness for C6 at a concrete three-part upload in a single batch. -/
theorem uploadLarge_finalize_parts_witness :
    ([⟨1, some "e"⟩, ⟨2, some "e"⟩, ⟨3, some "e"⟩] : List PartResult).map
        (·.partNumber) = List.range' 1 3 ∧
    ([⟨1, some "e"⟩, ⟨2, some "e"⟩, ⟨3, some "e"⟩] : List PartResult).Pairwise
        (fun a b => a.partNumber < b.partNumber) :=
  uploadLarge_finalize_parts (fun _ _ => .response 200 (some "e")) 100 3
    [⟨1, some "e"⟩, ⟨2, some "e"⟩, ⟨3, some "e"⟩] (by rfl)

/-! ## C9: a 2xx response with no ETag is accepted, not retried -/

/-- C9: a part whose PUT receives a 2xx response without an `ETag` header
succeeds on the first attempt with an absent (`undefined`) etag — no
failure, no retry; `uploadPart` attempts fail only on a transport error or
a non-2xx status; and the coordinator still proceeds to the finalize call,
feeding it `PartResult`s with absent etags. -/
theorem uploadPart_missing_etag (p st fileSize total : Nat) (f : FetchResult)
    (hok : respOk st = true) :
    uploadPart p (fun _ => .response st none) = ⟨1, [], some ⟨p, none⟩⟩ ∧
    (attemptPart p f = none ↔
      (f = .transportError ∨ ∃ s e, f = .response s e ∧ respOk s = false)) ∧
    uploadLarge (fun _ _ => .response st none) fileSize total =
      some ((List.range' 1 total).map fun j => ⟨j, none⟩) := by
  have hattempt : ∀ q : Nat, attemptPart q (.response st none) = some ⟨q, none⟩ := by
    intro q; simp [attemptPart, hok]
  refine ⟨?_, ?_, ?_⟩
  · rw [uploadPart_cases, hattempt p]
  · constructor
    · intro h
      cases f with
      | transportError => exact Or.inl rfl
      | response s e =>
        refine Or.inr ⟨s, e, rfl, ?_⟩
        simp only [attemptPart] at h
        rcases hs : respOk s
        · rfl
        · rw [if_pos hs] at h; cases h
    · rintro (rfl | ⟨s, e, rfl, hs⟩)
      · rfl
      · simp [attemptPart, hs]
  · have hup : ∀ j, 1 ≤ j → j ≤ total →
        (uploadPart j (fun _ => FetchResult.response st none)).result =
          some ⟨j, none⟩ := by
      intro j _ _
      rw [uploadPart_cases, hattempt j]
    unfold uploadLarge
    rw [uploadBatchesGo_total (fun _ _ => .response st none) _ total
      (getOptimalParallelism_pos fileSize) (fun j => ⟨j, none⟩) hup total 0
      (by omega)]
    rw [Nat.sub_zero]
    simp only [Option.map_some']
    rw [sortParts_of_range' _ 1 total (by
      rw [List.map_map]
      show List.map (fun j : Nat => j) (List.range' 1 total) = List.range' 1 total
      simp)]

/-- Witness for C9: a 204 response with no ETag header at part 1 of a
two-part upload. -/
theorem uploadPart_missing_etag_witness :
    uploadPart 1 (fun _ => .response 204 none) = ⟨1, [], some ⟨1, none⟩⟩ ∧
    (attemptPart 1 (.response 500 none) = none ↔
      ((.response 500 none : FetchResult) = .transportError ∨
        ∃ s e, (.response 500 none : FetchResult) = .response s e ∧
          respOk s = false)) ∧
    uploadLarge (fun _ _ => .response 204 none) 100 2 =
      some ((List.range' 1 2).map fun j => ⟨j, none⟩) :=
  uploadPart_missing_etag 1 204 100 2 (.response 500 none) (by decide)

/-! ## C3: the change detector returns the newest candidate -/

/-- Inserting never produces the empty list. -/
theorem insertByMtimeDesc_ne_nil (e : DirEntry) (l : List DirEntry) :
    insertByMtimeDesc e l ≠ [] := by
  cases l with
  | nil => simp [insertByMtimeDesc]
  | cons f fs =>
    simp only [insertByMtimeDesc]
    split <;> simp

/-- The sort yields the empty list only on the empty list. -/
theorem sortByMtimeDesc_eq_nil (l : List DirEntry) :
    sortByMtimeDesc l = [] ↔ l = [] := by
  cases l with
  | nil => simp [sortByMtimeDesc]
  | cons e es =>
    simp only [sortByMtimeDesc]
    constructor
    · intro h; exact absurd h (insertByMtimeDesc_ne_nil e _)
    · intro h; cases h

/-- Membership is preserved by the stable insert. -/
theorem mem_insertByMtimeDesc (x e : DirEntry) :
    ∀ l, x ∈ insertByMtimeDesc e l ↔ x = e ∨ x ∈ l
  | [] => by simp [insertByMtimeDesc]
  | f :: fs => by
    simp only [insertByMtimeDesc]
    split
    · rw [List.mem_cons, mem_insertByMtimeDesc x e fs, List.mem_cons]
      tauto
    · simp only [List.mem_cons]

/-- The sort permutes membership only. -/
theorem mem_sortByMtimeDesc (x : DirEntry) :
    ∀ l, x ∈ sortByMtimeDesc l ↔ x ∈ l
  | [] => Iff.rfl
  | e :: es => by
    rw [sortByMtimeDesc, mem_insertByMtimeDesc, mem_sortByMtimeDesc x es,
      List.mem_cons]

/-- The head of the descending sort has the maximal modification time. -/
theorem sortByMtimeDesc_head_max :
    ∀ (l : List DirEntry) (e : DirEntry), (sortByMtimeDesc l).head? = some e →
      ∀ f ∈ l, f.mtime ≤ e.mtime
  | [], e, h => by cases h
  | e₀ :: es, e, h => by
    rw [sortByMtimeDesc] at h
    rcases hs : sortByMtimeDesc es with _ | ⟨g, rest⟩
    · rw [hs] at h
      simp only [insertByMtimeDesc, List.head?_cons, Option.some.injEq] at h
      have hes : es = [] := (sortByMtimeDesc_eq_nil es).mp hs
      subst hes
      intro f hf
      rcases List.mem_cons.mp hf with rfl | hmem
      · rw [← h]
      · cases hmem
    · rw [hs] at h
      have ihg := sortByMtimeDesc_head_max es
      simp only [insertByMtimeDesc] at h
      split at h
      · rename_i hlt
        simp only [List.head?_cons, Option.some.injEq] at h
        subst h
        intro f hf
        rcases List.mem_cons.mp hf with rfl | hmem
        · exact le_of_lt hlt
        · exact ihg g (by rw [hs]; rfl) f hmem
      · rename_i hge
        simp only [List.head?_cons, Option.some.injEq] at h
        subst h
        intro f hf
        rcases List.mem_cons.mp hf with rfl | hmem
        · exact le_refl _
        · exact le_trans (ihg g (by rw [hs]; rfl) f hmem) (by omega)

/-- C3: `getLatestSave` returns `none` when the directory read fails or no
`.zip` candidate modified at/after the session start exists, and otherwise
returns a candidate of maximal modification time. -/
theorem getLatestSave_correct (startTime : Nat) (files : List DirEntry) :
    getLatestSave startTime none = none ∧
    (getLatestSave startTime (some files) = none ↔
      saveCandidates startTime files = []) ∧
    (∀ e, getLatestSave startTime (some files) = some e →
      e ∈ saveCandidates startTime files ∧
      ∀ f ∈ saveCandidates startTime files, f.mtime ≤ e.mtime) := by
  refine ⟨rfl, ?_, ?_⟩
  · show (sortByMtimeDesc (saveCandidates startTime files)).head? = none ↔ _
    rw [List.head?_eq_none_iff, sortByMtimeDesc_eq_nil]
  · intro e he
    have he' : (sortByMtimeDesc (saveCandidates startTime files)).head? = some e := he
    constructor
    · have hm : e ∈ sortByMtimeDesc (saveCandidates startTime files) :=
        List.mem_of_mem_head? (by rw [he']; exact rfl)
      exact (mem_sortByMtimeDesc e _).mp hm
    · exact sortByMtimeDesc_head_max _ e he'

/-- Witness for C3 at a concrete directory listing: of the two `.zip`
files modified at/after time 10, the one with the larger mtime is
returned, and it dominates all candidates. -/
theorem getLatestSave_correct_witness :
    (⟨"c.zip", 15⟩ : DirEntry) ∈
        saveCandidates 10 [⟨"a.zip", 12⟩, ⟨"b.txt", 99⟩, ⟨"c.zip", 15⟩] ∧
    ∀ f ∈ saveCandidates 10 [⟨"a.zip", 12⟩, ⟨"b.txt", 99⟩, ⟨"c.zip", 15⟩],
      f.mtime ≤ (⟨"c.zip", 15⟩ : DirEntry).mtime :=
  (getLatestSave_correct 10 [⟨"a.zip", 12⟩, ⟨"b.txt", 99⟩, ⟨"c.zip", 15⟩]).2.2
    ⟨"c.zip", 15⟩ (by decide)

/-! ## C2 and C8: the name formatter -/

/-- `stripZip` removes a literal trailing `.zip` from any name. -/
theorem stripZip_append_zip (x : List Char) :
    stripZip (x ++ ".zip".data) = x := by
  have hrev : (x ++ ".zip".data).reverse = 'p' :: 'i' :: 'z' :: '.' :: x.reverse := by
    simp
  unfold stripZip
  rw [hrev]
  simp

/-- A well-formed timestamp preceded by an underscore is a full
`/_\d{8}_\d{6}$/` window. -/
theorem isTsWindow_core (ts : List Char) (h : IsTsCore ts) :
    isTsWindow ('_' :: ts) = true := by
  obtain ⟨b1, b2, b3, b4, b5, b6, b7, b8, a1, a2, a3, a4, a5, a6, rfl, h8, h6⟩ := h
  simp only [List.all_cons, List.all_nil, Bool.and_true, Bool.and_eq_true] at h8 h6
  simp [isTsWindow, h8.1, h8.2.1, h8.2.2.1, h8.2.2.2.1, h8.2.2.2.2.1,
    h8.2.2.2.2.2.1, h8.2.2.2.2.2.2.1, h8.2.2.2.2.2.2.2, h6.1, h6.2.1, h6.2.2.1,
    h6.2.2.2.1, h6.2.2.2.2.1, h6.2.2.2.2.2]

/-- A well-formed timestamp has 15 characters. -/
theorem length_of_core (ts : List Char) (h : IsTsCore ts) : ts.length = 15 := by
  obtain ⟨b1, b2, b3, b4, b5, b6, b7, b8, a1, a2, a3, a4, a5, a6, rfl, -, -⟩ := h
  rfl

/-- `/_\d{8}_\d{6}$/` matches any name ending in an underscore and a
well-formed timestamp. -/
theorem tsSuffixMatches_append (x ts : List Char) (h : IsTsCore ts) :
    tsSuffixMatches (x ++ '_' :: ts) = true := by
  have hlen : (x ++ '_' :: ts).length = x.length + 16 := by
    simp [length_of_core ts h]
  unfold tsSuffixMatches
  rw [hlen]
  rw [show x.length + 16 - 16 = x.length by omega]
  rw [show (x ++ '_' :: ts).drop x.length = '_' :: ts from List.drop_left x _]
  simp [isTsWindow_core ts h]

/-- `stripTs` removes exactly the trailing `_<timestamp>` that
`formatBackupName` appended. -/
theorem stripTs_append (x ts : List Char) (h : IsTsCore ts) :
    stripTs (x ++ '_' :: ts) = x := by
  unfold stripTs
  rw [tsSuffixMatches_append x ts h]
  have hlen : (x ++ '_' :: ts).length = x.length + 16 := by
    simp [length_of_core ts h]
  rw [if_pos rfl, hlen]
  rw [show x.length + 16 - 16 = x.length by omega]
  exact List.take_left x _

/-- `formatStem` depends on its name argument only through
`stripTs (stripZip name)`. -/
theorem formatStem_congr (p X Y : List Char)
    (h : stripTs (stripZip X) = stripTs (stripZip Y)) :
    formatStem p X = formatStem p Y := by
  simp only [formatStem]
  rw [h]

/-- Re-processing a formatted name first strips the `.zip` and then the
appended `_<timestamp>`, recovering exactly the first pass's stem. -/
theorem stripTs_stripZip_formatted (p ts name : List Char) (h : IsTsCore ts) :
    stripTs (stripZip (formatBackupNameL p ts name)) = formatStem p name := by
  unfold formatBackupNameL
  rw [stripZip_append_zip, stripTs_append _ ts h]

/-- A name ending in `_<timestamp>` has at least one trailing timestamp
segment. -/
theorem tsChain_append_pos (x ts : List Char) (h : IsTsCore ts) :
    1 ≤ tsChain (x ++ '_' :: ts) := by
  unfold tsChain
  have hlen : (x ++ '_' :: ts).length = x.length + 16 := by
    simp [length_of_core ts h]
  rw [hlen, show x.length + 16 = (x.length + 15) + 1 by omega, tsChainGo]
  rw [tsSuffixMatches_append x ts h]
  simp

/-- C8 (counterexample): formatting twice can leave two stacked timestamp
segments before the `.zip` extension: a single `replace` strips only one
previously-applied timestamp, so a name that already carries two keeps one
of them through each pass. -/
theorem format_twice_counterexample :
    tsChain (stripZip (formatBackupName "Base" "20240202_111111"
        (formatBackupName "Base" "20240101_000000"
          "a_12345678_123456_23456789_234567.zip")).data) = 2 ∧
    tsChain (stripZip (formatBackupName "Base" "20240101_000000"
        "a_12345678_123456_23456789_234567.zip").data) = 2 := by
  constructor <;> decide

/-- C8 (amended): the second application of the formatter always strips
the timestamp appended by the first before appending a new one: the
doubly-formatted name does not depend on the first timestamp at all, and
it still ends in exactly the one newly-appended timestamp segment (a
*second* trailing segment can only be a leftover already present in the
original name, as in the counterexample). -/
theorem format_twice_no_accumulation (p name ts1 ts1' ts2 : List Char)
    (h1 : IsTsCore ts1) (h1' : IsTsCore ts1') (h2 : IsTsCore ts2) :
    formatBackupNameL p ts2 (formatBackupNameL p ts1 name) =
      formatBackupNameL p ts2 (formatBackupNameL p ts1' name) ∧
    1 ≤ tsChain (stripZip (formatBackupNameL p ts2 (formatBackupNameL p ts1 name))) := by
  constructor
  · show (formatStem p (formatBackupNameL p ts1 name) ++ '_' :: ts2) ++ ".zip".data =
      (formatStem p (formatBackupNameL p ts1' name) ++ '_' :: ts2) ++ ".zip".data
    rw [formatStem_congr p (formatBackupNameL p ts1 name) (formatBackupNameL p ts1' name) (by
      rw [stripTs_stripZip_formatted p ts1 name h1,
        stripTs_stripZip_formatted p ts1' name h1'])]
  · show 1 ≤ tsChain (stripZip
      ((formatStem p (formatBackupNameL p ts1 name) ++ '_' :: ts2) ++ ".zip".data))
    rw [stripZip_append_zip]
    exact tsChain_append_pos _ ts2 h2

/-- Witness for the amended C8 theorem at concrete timestamps and name. -/
theorem format_twice_no_accumulation_witness :
    formatBackupNameL "Base".data "20241231_235959".data
        (formatBackupNameL "Base".data "20240101_000000".data "my_world.zip".data) =
      formatBackupNameL "Base".data "20241231_235959".data
        (formatBackupNameL "Base".data "20240606_060606".data "my_world.zip".data) ∧
    1 ≤ tsChain (stripZip (formatBackupNameL "Base".data "20241231_235959".data
        (formatBackupNameL "Base".data "20240101_000000".data "my_world.zip".data))) :=
  format_twice_no_accumulation "Base".data "my_world.zip".data
    "20240101_000000".data "20240606_060606".data "20241231_235959".data
    ⟨'2', '0', '2', '4', '0', '1', '0', '1', '0', '0', '0', '0', '0', '0',
      by decide, by decide, by decide⟩
    ⟨'2', '0', '2', '4', '0', '6', '0', '6', '0', '6', '0', '6', '0', '6',
      by decide, by decide, by decide⟩
    ⟨'2', '0', '2', '4', '1', '2', '3', '1', '2', '3', '5', '9', '5', '9',
      by decide, by decide, by decide⟩

/-- C2 (counterexample): the formatter does not strip *only* the old
timestamp and the configured prefix token: for `"my_world.zip"` with
prefix `"Base"` the segment `"my"` — neither a timestamp nor the
configured prefix — is stripped too, so the base name is not preserved. -/
theorem formatBackupName_counterexample :
    formatBackupName "Base" "20240101_000000" "my_world.zip" =
      "Base_world_20240101_000000.zip" ∧
    formatBackupName "Base" "20240101_000000" "my_world.zip" ≠
      "Base_my_world_20240101_000000.zip" := by
  constructor
  · rfl
  · decide

/-- C2 (amended): the formatter strips a previously-applied
`_YYYYMMDD_HHMMSS` suffix and then — whenever the remaining base contains
an underscore and does not start with `_autosave` — the whole segment
before the first underscore, whether or not it equals the configured
prefix; then it prepends the sanitized prefix and appends the fresh
timestamp and `.zip`.  The spec's example still holds: for
`"foo_20230101_120000.zip"` with prefix `"Base"` the output is
`"Base_foo_<newtimestamp>.zip"` for every fresh timestamp, while
`"my_world.zip"` becomes `"Base_world_<newtimestamp>.zip"`. -/
theorem formatBackupName_amended (ts : List Char) :
    formatBackupNameL "Base".data ts "foo_20230101_120000.zip".data =
      "Base_foo_".data ++ (ts ++ ".zip".data) ∧
    formatBackupNameL "Base".data ts "my_world.zip".data =
      "Base_world_".data ++ (ts ++ ".zip".data) :=
  ⟨rfl, rfl⟩

/-! ## C10: the two `calculateHash` branches -/

/-- Hex encoding yields two characters per byte. -/
theorem hexEncode_length (bs : List Nat) : (hexEncode bs).length = 2 * bs.length := by
  induction bs with
  | nil => rfl
  | cons b tl ih =>
    show (List.flatten _).length = _
    simp only [List.map_cons, List.flatten_cons, List.length_append,
      List.length_cons, List.length_nil]
    have : (List.flatten (tl.map fun b => [hexDigit (b / 16), hexDigit (b % 16)])).length
        = 2 * tl.length := ih
    omega

/-- Hex digits of values below 16 are lowercase hex characters. -/
theorem hexDigit_lower : ∀ n < 16, isLowerHexChar (hexDigit n) = true := by decide

/-- C10: the `Bun.file(...).arrayBuffer()` branch and the `fs.readFile`
fallback branch of `calculateHash` compute the same function of the file's
byte content — both hex-encode the same external MD5 digest of the full
content — and (whenever the digest is 16 bytes) the output is a 32
character lowercase-hex string. -/
theorem calculateHash_branches_agree (md5 : List Nat → List Nat) (content : List Nat)
    (hlen : (md5 content).length = 16) (hbytes : ∀ b ∈ md5 content, b < 256) :
    calculateHashBun md5 content = calculateHashFallback md5 content ∧
    (calculateHashBun md5 content).length = 32 ∧
    ∀ c ∈ (calculateHashBun md5 content).data, isLowerHexChar c = true := by
  refine ⟨rfl, ?_, ?_⟩
  · show (hexEncode (md5 content)).length = 32
    rw [hexEncode_length, hlen]
  · intro c hc
    have hc' : c ∈ ((md5 content).map fun b =>
        [hexDigit (b / 16), hexDigit (b % 16)]).flatten := hc
    rw [List.mem_flatten] at hc'
    obtain ⟨s, hs, hcs⟩ := hc'
    rw [List.mem_map] at hs
    obtain ⟨b, hb, rfl⟩ := hs
    have hblt := hbytes b hb
    rcases List.mem_cons.mp hcs with rfl | hcs
    · exact hexDigit_lower _ (by omega)
    · rcases List.mem_cons.mp hcs with rfl | hcs
      · exact hexDigit_lower _ (by omega)
      · cases hcs

/-- Witness for C10 at a concrete digest function and content. -/
theorem calculateHash_branches_agree_witness :
    calculateHashBun (fun _ => List.replicate 16 0) [] =
      calculateHashFallback (fun _ => List.replicate 16 0) [] ∧
    (calculateHashBun (fun _ => List.replicate 16 0) []).length = 32 ∧
    ∀ c ∈ (calculateHashBun (fun _ => List.replicate 16 0) []).data,
      isLowerHexChar c = true :=
  calculateHash_branches_agree (fun _ => List.replicate 16 0) [] (by decide)
    (by decide)
